import Mathlib

/-!
Verification of the markdown-with-math parsing and rendering pipeline of
`nbconvert/filters/markdown_mistune.py` (nbconvert).

The math-recognition regular expressions of `MathBlockParser` and
`MathInlineParser`, together with their token-emitting handlers, are embedded
as executable scanners over `List Char`.  The surrounding generic scanning
engine (the external markdown library) is modelled from the spec: rules are
tried in priority order at each scan position, the leftmost match wins, and
characters not consumed by any math rule pass through as literal text.
The `IPythonRenderer` methods (`image`, `block_code`, `heading`, the math
renderers) are embedded directly; external collaborators (syntax highlighter,
MIME guesser, filesystem, base HTML renderer) are explicit parameters or
spec-modelled definitions.
-/

namespace Nbconvert

abbrev Chars := List Char

/-- The characters of a string literal. -/
def lit (s : String) : Chars := s.toList

/-- Python-dict lookup on an association list (first binding wins, like a dict
built in insertion order). -/
def alookup {α : Type} (m : List (Chars × α)) (k : Chars) : Option α :=
  (m.find? fun p => p.1 == k).map fun p => p.2

/-- Inline tokens emitted by `MathInlineParser`'s handlers
(`parse_block_math_tex`, `parse_block_math_latex`, `parse_inline_math_tex`,
`parse_inline_math_latex`, `parse_latex_environment`), plus literal text for
characters no math rule consumes. -/
inductive Token where
  | text (raw : Chars)
  | blockMath (raw : Chars)
  | inlineMath (raw : Chars)
  | latexEnv (name body : Chars)
  deriving DecidableEq

/-- Non-greedy search for the closing delimiter of `.*?(?<!\\)\$\$`
(used by `BLOCK_MATH_TEX` and the first `MULTILINE_MATH` alternative).
`prev` is the character immediately before the current position, inspected by
the `(?<!\\)` lookbehind.  Returns the body and the text after the `$$`. -/
def closeDollar2 (prev : Char) : Chars → Option (Chars × Chars)
  | [] => none
  | c :: rest =>
    if c = '$' ∧ rest.head? = some '$' ∧ prev ≠ '\\' then some ([], rest.tail)
    else (closeDollar2 c rest).map fun p => (c :: p.1, p.2)

/-- Non-greedy search for the closing delimiter of `.*?(?<!\\)\\\\X`
where `X` is `\]` or `\)` (used by `BLOCK_MATH_LATEX` / `INLINE_MATH_LATEX`):
two literal backslashes followed by `d`, with a `(?<!\\)` lookbehind. -/
def closeLatex (d : Char) (prev : Char) : Chars → Option (Chars × Chars)
  | [] => none
  | c :: rest =>
    if c = '\\' ∧ rest.head? = some '\\' ∧ rest.tail.head? = some d ∧ prev ≠ '\\' then
      some ([], rest.tail.tail)
    else (closeLatex d c rest).map fun p => (c :: p.1, p.2)

/-- Non-greedy search for the closing delimiter of `.+?(?<![$\\])\$`
(used by `INLINE_MATH_TEX`): a `$` whose preceding character is neither `$`
nor a backslash. -/
def closeDollar1 (prev : Char) : Chars → Option (Chars × Chars)
  | [] => none
  | c :: rest =>
    if c = '$' ∧ prev ≠ '$' ∧ prev ≠ '\\' then some ([], rest)
    else (closeDollar1 c rest).map fun p => (c :: p.1, p.2)

/-- Non-greedy search for a literal closing sequence with no lookbehind
(used for `\end{name}` back-references and the second `MULTILINE_MATH`
alternative, whose closing has no lookbehind). -/
def closeSeq (close : Chars) : Chars → Option (Chars × Chars)
  | [] => none
  | c :: rest =>
    if close.isPrefixOf (c :: rest) then some ([], (c :: rest).drop close.length)
    else (closeSeq close rest).map fun p => (c :: p.1, p.2)

/-- `[a-z]` as in the environment-name pattern. -/
def isLowerAZ (c : Char) : Bool := decide ('a' ≤ c) && decide (c ≤ 'z')

/-- The environment name of `\begin{(?P<math_env_name>[a-z]*\*?)}`: a greedy
run of lowercase letters, an optional `*`, then the closing brace.  Returns
the captured name and the text after the brace. -/
def parseEnvName (s : Chars) : Option (Chars × Chars) :=
  let run := s.takeWhile isLowerAZ
  match s.dropWhile isLowerAZ with
  | '*' :: '}' :: r => some (run ++ ['*'], r)
  | '}' :: r => some (run, r)
  | _ => none

/-- `BLOCK_MATH_TEX = (?s:(?<!\\)\$\$(?P<math_block_tex>.*?)(?<!\\)\$\$)`
together with `parse_block_math_tex`. -/
def tryBlockMathTex (prev : Option Char) (s : Chars) : Option (Token × Chars) :=
  if (lit "$$").isPrefixOf s ∧ prev ≠ some '\\' then
    (closeDollar2 '$' (s.drop 2)).map fun p => (Token.blockMath p.1, p.2)
  else none

/-- `BLOCK_MATH_LATEX = (?s:(?<!\\)\\\\\[(?P<math_block_latex>.*?)(?<!\\)\\\\\])`
together with `parse_block_math_latex`: note the delimiters are the
two-character sequences `\\[` and `\\]`. -/
def tryBlockMathLatex (prev : Option Char) (s : Chars) : Option (Token × Chars) :=
  if (lit "\\\\[").isPrefixOf s ∧ prev ≠ some '\\' then
    (closeLatex ']' '[' (s.drop 3)).map fun p => (Token.blockMath p.1, p.2)
  else none

/-- `INLINE_MATH_TEX = (?s:(?<![$\\])\$(?P<math_inline_tex>.+?)(?<![$\\])\$)`
together with `parse_inline_math_tex`: the body is non-empty, and the
characters immediately preceding the opening and the closing `$` are neither
`$` nor a backslash. -/
def tryInlineMathTex (prev : Option Char) (s : Chars) : Option (Token × Chars) :=
  if s.head? = some '$' ∧ prev ≠ some '$' ∧ prev ≠ some '\\' then
    match s.tail with
    | [] => none
    | c :: rest => (closeDollar1 c rest).map fun p => (Token.inlineMath (c :: p.1), p.2)
  else none

/-- `INLINE_MATH_LATEX = (?s:(?<!\\)\\\\\((?P<math_inline_latex>.*?)(?<!\\)\\\\\))`
together with `parse_inline_math_latex`. -/
def tryInlineMathLatex (prev : Option Char) (s : Chars) : Option (Token × Chars) :=
  if (lit "\\\\(").isPrefixOf s ∧ prev ≠ some '\\' then
    (closeLatex ')' '(' (s.drop 3)).map fun p => (Token.inlineMath p.1, p.2)
  else none

/-- `LATEX_ENVIRONMENT = (?s:\\begin\{name\}(?P<math_env_body>.*?)\\end\{name\})`
with `name = (?P<math_env_name>[a-z]*\*?)` reused as a back-reference,
together with `parse_latex_environment`.  No lookbehind is involved. -/
def tryLatexEnv (_prev : Option Char) (s : Chars) : Option (Token × Chars) :=
  if (lit "\\begin\x7b").isPrefixOf s then
    match parseEnvName (s.drop 7) with
    | some (name, rest) =>
      (closeSeq (lit "\\end\x7b" ++ name ++ ['}']) rest).map fun p =>
        (Token.latexEnv name p.1, p.2)
    | none => none
  else none

/-- The inline math rules in the priority order of
`MathInlineParser.DEFAULT_RULES`.  On a match, also returns the last
character of the matched text (it becomes the lookbehind context for the
next scan position). -/
def tryMathRules (prev : Option Char) (s : Chars) : Option (Token × Char × Chars) :=
  match tryBlockMathTex prev s with
  | some (t, r) => some (t, '$', r)
  | none =>
    match tryBlockMathLatex prev s with
    | some (t, r) => some (t, ']', r)
    | none =>
      match tryInlineMathTex prev s with
      | some (t, r) => some (t, '$', r)
      | none =>
        match tryInlineMathLatex prev s with
        | some (t, r) => some (t, ')', r)
        | none =>
          match tryLatexEnv prev s with
          | some (t, r) => some (t, '}', r)
          | none => none

/-- Flush accumulated literal characters (held in reverse) as a text token. -/
def flushText (acc : Chars) (toks : List Token) : List Token :=
  if acc = [] then toks else Token.text acc.reverse :: toks

/-- Modelled from the spec: the generic inline scanning engine of the external
markdown library — at each scan position the math rules are tried in priority
order, the first match wins and is consumed eagerly, and characters not
consumed by any math rule become literal text.  `prev` tracks the character
immediately before the current position (the lookbehind context).  `fuel`
bounds the number of scan steps; each step consumes at least one character,
so `tokenize` below supplies the input length, which is always enough. -/
def scanAux (fuel : Nat) (prev : Option Char) (acc : Chars) (s : Chars) : List Token :=
  match fuel, s with
  | _, [] => flushText acc []
  | 0, rest => flushText (rest.reverse ++ acc) []
  | fuel + 1, c :: rest =>
    match tryMathRules prev (c :: rest) with
    | some (t, last, rest2) => flushText acc (t :: scanAux fuel (some last) [] rest2)
    | none => scanAux fuel (some c) (c :: acc) rest

/-- The inline tokenization of a text span: math tokens as emitted by the
`MathInlineParser` handlers, literal text otherwise. -/
def tokenize (s : Chars) : List Token := scanAux s.length none [] s

/-- The text tokens produced by a span no math rule touches. -/
def textTok (s : Chars) : List Token := if s = [] then [] else [Token.text s]

/-- `MathBlockParser.MULTILINE_MATH` tried at one position: the three
alternatives in order — `(?<!\\)[$]{2}.*?(?<!\\)[$]{2}`, then
`\\\\\[.*?\\\\\]` (no lookbehinds), then the back-referenced environment.
Returns the whole matched text (`m[0]`, which `parse_multiline_math` adds as
a single paragraph) and the rest. -/
def multilineMathMatch (prev : Option Char) (s : Chars) : Option (Chars × Chars) :=
  if (lit "$$").isPrefixOf s ∧ prev ≠ some '\\' then
    (closeDollar2 '$' (s.drop 2)).map fun p => (lit "$$" ++ p.1 ++ lit "$$", p.2)
  else if (lit "\\\\[").isPrefixOf s then
    (closeSeq (lit "\\\\]") (s.drop 3)).map fun p => (lit "\\\\[" ++ p.1 ++ lit "\\\\]", p.2)
  else if (lit "\\begin\x7b").isPrefixOf s then
    match parseEnvName (s.drop 7) with
    | some (name, rest) =>
      (closeSeq (lit "\\end\x7b" ++ name ++ ['}']) rest).map fun p =>
        (lit "\\begin\x7b" ++ name ++ ['}'] ++ p.1 ++ (lit "\\end\x7b" ++ name ++ ['}']), p.2)
    | none => none
  else none

/-- Recognizer for `block_math` tokens. -/
def isBlockMath : Token → Bool
  | .blockMath _ => true
  | _ => false

/-- The lookbehind context after scanning past `pre`: the last character of
`pre`, or the incoming context when `pre` is empty. -/
def prevOf (pre : Chars) (prev : Option Char) : Option Char :=
  match pre.getLast? with
  | some c => some c
  | none => prev

/-! ## The renderer (`IPythonRenderer` and its collaborators) -/

/-- `html_escape = partial(escape, quote=False)`: escape `&`, `<`, `>`. -/
def escapeChar (c : Char) : Chars :=
  if c = '&' then lit "&amp;"
  else if c = '<' then lit "&lt;"
  else if c = '>' then lit "&gt;"
  else [c]

/-- `IPythonRenderer.escape_html`. -/
def html_escape (s : Chars) : Chars := (s.map escapeChar).flatten

/-- The per-render configuration of `IPythonRenderer.__init__`. -/
structure IPythonRenderer where
  embed_images : Bool := false
  exclude_anchor_links : Bool := false
  anchor_link_text : Chars := lit "¶"
  path : Chars := []
  attachments : List (Chars × List (Chars × Chars)) := []

/-- `IPythonRenderer.block_math`. -/
def block_math (body : Chars) : Chars := lit "$$" ++ html_escape body ++ lit "$$"

/-- `IPythonRenderer.inline_math`. -/
def inline_math (body : Chars) : Chars := lit "$" ++ html_escape body ++ lit "$"

/-- `IPythonRenderer.latex_environment`. -/
def latex_environment (name body : Chars) : Chars :=
  lit "\\begin\x7b" ++ html_escape name ++ lit "\x7d" ++ html_escape body ++
    lit "\\end\x7b" ++ html_escape name ++ lit "\x7d"

/-- Python whitespace as used by `str.strip` / `str.split` on the inputs here. -/
def isPyWS (c : Char) : Bool := (c == ' ') || (c == '\t') || (c == '\n') || (c == '\r')

/-- Python `str.strip()`. -/
def py_strip (s : Chars) : Chars :=
  ((s.dropWhile isPyWS).reverse.dropWhile isPyWS).reverse

/-- Python `s.split(None, 1)[0]` as an `Option`: the first
whitespace-separated word, `none` when there is none (the source would raise
`IndexError` there). -/
def py_split_first (s : Chars) : Option Chars :=
  let t := s.dropWhile isPyWS
  if t = [] then none else some (t.takeWhile fun c => !isPyWS c)

/-- Modelled from the spec: `HTMLRenderer.block_code` of the external markdown
library, the plain unhighlighted fallback block. -/
def super_block_code (code : Chars) : Chars :=
  lit "<pre><code>" ++ html_escape code ++ lit "</code></pre>\n"

/-- `IPythonRenderer.block_mermaidjs`. -/
def block_mermaidjs (code : Chars) : Chars :=
  lit "<div class=\"jp-Mermaid\"><pre class=\"mermaid\">\n" ++ py_strip code ++
    lit "\n</pre></div>"

/-- `IPythonRenderer.block_code`.  The syntax-highlighter collaborator is
explicit: `known lang` tells whether `get_lexer_by_name(lang)` succeeds (else
it raises `ClassNotFound`), and `hl lang code` is
`highlight(code, lexer, HtmlFormatter())`.  Returns `none` exactly when the
source raises `IndexError` (whitespace-only fence info). -/
def block_code (known : Chars → Bool) (hl : Chars → Chars → Chars)
    (code : Chars) (info : Option Chars) : Option Chars :=
  match info with
  | none => some (super_block_code code)
  | some i =>
    if i = [] then some (super_block_code code)
    else if (lit "mermaid").isPrefixOf i then some (block_mermaidjs code)
    else
      match py_split_first (py_strip i) with
      | none => none
      | some lang =>
        if known lang then some (hl lang code)
        else some (super_block_code (lang ++ '\n' :: code))

/-- The id `add_anchor` derives from a heading's visible text: whitespace
replaced by hyphens. -/
def anchorId (text : Chars) : Chars := text.map fun c => if isPyWS c then '-' else c

/-- Modelled from the spec: `HTMLRenderer.heading` of the external markdown
library — standard heading markup. -/
def super_heading (level : Nat) (text : Chars) : Chars :=
  lit "<h" ++ lit (toString level) ++ lit ">" ++ text ++ lit "</h" ++
    lit (toString level) ++ lit ">\n"

/-- Modelled from the spec: `add_anchor` of `nbconvert.filters.strings` (that
module is absent from the sources; only a legacy variant without the glyph
parameter is present).  It parses the heading markup, sets the element id to
the visible text with whitespace replaced by hyphens, and appends an
anchor-link element whose text is the configured glyph.  Specialised here to
the markup `super_heading` produces. -/
def add_anchor (level : Nat) (text glyph : Chars) : Chars :=
  lit "<h" ++ lit (toString level) ++ lit " id=\"" ++ anchorId text ++ lit "\">" ++
    text ++ lit "<a class=\"anchor-link\" href=\"#" ++ anchorId text ++ lit "\">" ++
    glyph ++ lit "</a></h" ++ lit (toString level) ++ lit ">\n"

/-- `IPythonRenderer.heading`: standard markup, then `add_anchor` unless
anchor links are excluded. -/
def heading (r : IPythonRenderer) (text : Chars) (level : Nat) : Chars :=
  if r.exclude_anchor_links then super_heading level text
  else add_anchor level text r.anchor_link_text

/-! ## Images, attachments and embedding -/

/-- Python `os.path.join` for the posix cases exercised here. -/
def os_path_join (a b : Chars) : Chars :=
  if b.head? = some '/' then b
  else if a = [] then b
  else if a.getLast? = some '/' then a ++ b
  else a ++ '/' :: b

/-- The base64 alphabet. -/
def b64char (n : Nat) : Char :=
  (lit "ABCDEFGHIJKLMNOPQRSTUVWXYZabcdefghijklmnopqrstuvwxyz0123456789+/").getD n 'A'

/-- `base64.b64encode` over byte values. -/
def b64encode : List Nat → Chars
  | [] => []
  | [a] => [b64char (a / 4), b64char (a % 4 * 16), '=', '=']
  | [a, b] => [b64char (a / 4), b64char (a % 4 * 16 + b / 16), b64char (b % 16 * 4), '=']
  | a :: b :: c :: rest =>
    [b64char (a / 4), b64char (a % 4 * 16 + b / 16), b64char (b % 16 * 4 + c / 64),
      b64char (c % 64)] ++ b64encode rest

/-- Python string interpolation of an optional value: `None` prints as the
four characters `None`. -/
def pyStr : Option Chars → Chars
  | none => lit "None"
  | some s => s

/-- `IPythonRenderer._src_to_base64`.  The filesystem (`os.path.exists` and
`open(...).read()`) is the explicit map `fs` from paths to byte contents, and
`guess` is `mimetypes.guess_type(...)[0]`. -/
def src_to_base64 (fs : List (Chars × List Nat)) (guess : Chars → Option Chars)
    (r : IPythonRenderer) (src : Chars) : Option Chars :=
  let src_path := os_path_join r.path src
  match alookup fs src_path with
  | none => none
  | some bytes =>
    some (lit "data:" ++ pyStr (guess src_path) ++ lit ";base64," ++
      (b64encode bytes).filter fun c => c != '\n')

/-- Modelled from the spec: `HTMLRenderer.image` of the external markdown
library — an img element whose src is the resolved url. -/
def super_image (text url : Chars) (title : Option Chars) : Chars :=
  lit "<img src=\"" ++ url ++ lit "\" alt=\"" ++ text ++
    (match title with
     | some t => lit "\" title=\"" ++ t
     | none => []) ++ lit "\" />"

/-- The exceptions the render path can raise: `InvalidNotebook` for a missing
attachment, and the `IndexError` of `list(attachment.keys())[0]` on an
attachment with no MIME types. -/
inductive RenderError where
  | invalidNotebook (msg : Chars)
  | indexError
  deriving DecidableEq

/-- The ordered MIME preference list of `IPythonRenderer.image`
(vector over raster, lossless over lossy). -/
def preferredMimes : List Chars := [lit "image/svg+xml", lit "image/png", lit "image/jpeg"]

/-- The `for ... else` loop of `IPythonRenderer.image`: the first preferred
MIME type present in the attachment, otherwise its first key;
`none` when the attachment has no keys at all. -/
def pick_mime (attachment : List (Chars × Chars)) : Option Chars :=
  match preferredMimes.find? (fun m => (alookup attachment m).isSome) with
  | some m => some m
  | none => attachment.head?.map fun p => p.1

/-- `IPythonRenderer.image`: resolve `attachment:` references against the
attachment map (raising `InvalidNotebook` for a missing name), else embed the
file as a base64 data url when `embed_images` is set and the file exists,
else pass the url through unchanged. -/
def image (fs : List (Chars × List Nat)) (guess : Chars → Option Chars)
    (r : IPythonRenderer) (text url : Chars) (title : Option Chars) :
    Except RenderError Chars :=
  if (lit "attachment:").isPrefixOf url then
    let name := url.drop (lit "attachment:").length
    match alookup r.attachments name with
    | none => .error (.invalidNotebook (lit "missing attachment: " ++ name))
    | some attachment =>
      match pick_mime attachment with
      | none => .error .indexError
      | some mime_type =>
        match alookup attachment mime_type with
        | none => .error .indexError
        | some data =>
          .ok (super_image text (lit "data:" ++ mime_type ++ lit ";base64," ++ data) title)
  else if r.embed_images then
    match src_to_base64 fs guess r url with
    | some base64_url => .ok (super_image text base64_url title)
    | none => .ok (super_image text url title)
  else .ok (super_image text url title)

instance : DecidableEq (Except RenderError Chars) := fun a b =>
  match a, b with
  | .error x, .error y =>
    if h : x = y then .isTrue (by rw [h]) else .isFalse (by intro he; cases he; exact h rfl)
  | .error _, .ok _ => .isFalse (by intro he; cases he)
  | .ok _, .error _ => .isFalse (by intro he; cases he)
  | .ok x, .ok y =>
    if h : x = y then .isTrue (by rw [h]) else .isFalse (by intro he; cases he; exact h rfl)

/-- Whether a render result is the `InvalidNotebook` failure. -/
def raisesInvalidNotebook : Except RenderError Chars → Bool
  | .error (.invalidNotebook _) => true
  | _ => false

/-! ## Lemmas: the closers consume at least their delimiters (so the fuel
`tokenize` supplies is always sufficient) -/

theorem closeDollar2_length {prev : Char} {s b r : Chars}
    (h : closeDollar2 prev s = some (b, r)) : s.length = b.length + 2 + r.length := by
  induction s generalizing prev b with
  | nil => simp [closeDollar2] at h
  | cons c rest ih =>
    rw [closeDollar2] at h
    split at h
    · rename_i hc
      obtain ⟨hc1, hc2, hc3⟩ := hc
      cases rest with
      | nil => simp at hc2
      | cons d rest2 =>
        simp only [Option.some.injEq, Prod.mk.injEq] at h
        obtain ⟨hb, hr⟩ := h
        subst hb
        simp only [List.tail_cons] at hr
        subst hr
        simp
        omega
    · rw [Option.map_eq_some'] at h
      obtain ⟨⟨b0, r0⟩, hcl, heq⟩ := h
      simp only [Prod.mk.injEq] at heq
      obtain ⟨hb, hr⟩ := heq
      subst hb
      subst hr
      have := ih hcl
      simp [this]
      omega

theorem closeLatex_length {d : Char} {prev : Char} {s b r : Chars}
    (h : closeLatex d prev s = some (b, r)) : s.length = b.length + 3 + r.length := by
  induction s generalizing prev b with
  | nil => simp [closeLatex] at h
  | cons c rest ih =>
    rw [closeLatex] at h
    split at h
    · rename_i hc
      obtain ⟨hc1, hc2, hc3, hc4⟩ := hc
      cases rest with
      | nil => simp at hc2
      | cons e rest2 =>
        cases rest2 with
        | nil => simp at hc3
        | cons f rest3 =>
          simp only [Option.some.injEq, Prod.mk.injEq] at h
          obtain ⟨hb, hr⟩ := h
          subst hb
          simp only [List.tail_cons] at hr
          subst hr
          simp
          omega
    · rw [Option.map_eq_some'] at h
      obtain ⟨⟨b0, r0⟩, hcl, heq⟩ := h
      simp only [Prod.mk.injEq] at heq
      obtain ⟨hb, hr⟩ := heq
      subst hb
      subst hr
      have := ih hcl
      simp [this]
      omega

theorem closeDollar1_length {prev : Char} {s b r : Chars}
    (h : closeDollar1 prev s = some (b, r)) : s.length = b.length + 1 + r.length := by
  induction s generalizing prev b with
  | nil => simp [closeDollar1] at h
  | cons c rest ih =>
    rw [closeDollar1] at h
    split at h
    · simp only [Option.some.injEq, Prod.mk.injEq] at h
      obtain ⟨hb, hr⟩ := h
      subst hb
      subst hr
      simp
      omega
    · rw [Option.map_eq_some'] at h
      obtain ⟨⟨b0, r0⟩, hcl, heq⟩ := h
      simp only [Prod.mk.injEq] at heq
      obtain ⟨hb, hr⟩ := heq
      subst hb
      subst hr
      have := ih hcl
      simp [this]
      omega

theorem closeSeq_length {close : Chars} {s b r : Chars}
    (h : closeSeq close s = some (b, r)) : s.length = b.length + close.length + r.length := by
  induction s generalizing b with
  | nil => simp [closeSeq] at h
  | cons c rest ih =>
    rw [closeSeq] at h
    split at h
    · rename_i hc
      simp only [Option.some.injEq, Prod.mk.injEq] at h
      obtain ⟨hb, hr⟩ := h
      subst hb
      subst hr
      have hpre : close <+: c :: rest := by
        rwa [← List.isPrefixOf_iff_prefix]
      obtain ⟨t, ht⟩ := hpre
      rw [← ht, List.drop_left, List.length_append]
      simp only [List.length_nil]
      omega
    · rw [Option.map_eq_some'] at h
      obtain ⟨⟨b0, r0⟩, hcl, heq⟩ := h
      simp only [Prod.mk.injEq] at heq
      obtain ⟨hb, hr⟩ := heq
      subst hb
      subst hr
      have := ih hcl
      simp [this]
      omega

theorem parseEnvName_length {s name r : Chars}
    (h : parseEnvName s = some (name, r)) : r.length < s.length := by
  rw [parseEnvName] at h
  have hsplit : s.takeWhile isLowerAZ ++ s.dropWhile isLowerAZ = s :=
    List.takeWhile_append_dropWhile isLowerAZ s
  have hlen := congrArg List.length hsplit
  rw [List.length_append] at hlen
  split at h
  · rename_i r2 heq
    simp only [Option.some.injEq, Prod.mk.injEq] at h
    obtain ⟨hn, hr⟩ := h
    subst hr
    rw [heq] at hlen
    simp at hlen
    omega
  · rename_i r2 heq
    simp only [Option.some.injEq, Prod.mk.injEq] at h
    obtain ⟨hn, hr⟩ := h
    subst hr
    rw [heq] at hlen
    simp at hlen
    omega
  · exact absurd h (by simp)

theorem isPrefixOf_length_le {l s : Chars} (h : l.isPrefixOf s = true) :
    l.length ≤ s.length := by
  rw [List.isPrefixOf_iff_prefix] at h
  exact h.length_le

theorem tryMathRules_rest_lt {prev : Option Char} {s : Chars} {t : Token} {last : Char}
    {r : Chars} (h : tryMathRules prev s = some (t, last, r)) : r.length < s.length := by
  rw [tryMathRules] at h
  split at h
  · rename_i ht
    rw [tryBlockMathTex] at ht
    split at ht
    · rename_i hc
      rw [Option.map_eq_some'] at ht
      obtain ⟨⟨b0, r0⟩, hcl, heq⟩ := ht
      simp only [Prod.mk.injEq] at heq
      have hr0 : r0 = r := by
        cases h
        exact heq.2
      subst hr0
      have h1 := closeDollar2_length hcl
      have h2 := isPrefixOf_length_le hc.1
      simp [lit] at h2
      simp [List.length_drop] at h1
      omega
    · exact absurd ht (by simp)
  split at h
  · rename_i ht
    rw [tryBlockMathLatex] at ht
    split at ht
    · rename_i hc
      rw [Option.map_eq_some'] at ht
      obtain ⟨⟨b0, r0⟩, hcl, heq⟩ := ht
      simp only [Prod.mk.injEq] at heq
      have hr0 : r0 = r := by
        cases h
        exact heq.2
      subst hr0
      have h1 := closeLatex_length hcl
      have h2 := isPrefixOf_length_le hc.1
      simp [lit] at h2
      simp [List.length_drop] at h1
      omega
    · exact absurd ht (by simp)
  split at h
  · rename_i ht
    rw [tryInlineMathTex] at ht
    split at ht
    · rename_i hc
      split at ht
      · exact absurd ht (by simp)
      · rename_i c rest0 htl
        rw [Option.map_eq_some'] at ht
        obtain ⟨⟨b0, r0⟩, hcl, heq⟩ := ht
        simp only [Prod.mk.injEq] at heq
        have hr0 : r0 = r := by
          cases h
          exact heq.2
        subst hr0
        have h1 := closeDollar1_length hcl
        have hs : s.tail.length < s.length := by
          cases s with
          | nil => simp at hc
          | cons a as => simp
        rw [htl] at hs
        simp at hs
        omega
    · exact absurd ht (by simp)
  split at h
  · rename_i ht
    rw [tryInlineMathLatex] at ht
    split at ht
    · rename_i hc
      rw [Option.map_eq_some'] at ht
      obtain ⟨⟨b0, r0⟩, hcl, heq⟩ := ht
      simp only [Prod.mk.injEq] at heq
      have hr0 : r0 = r := by
        cases h
        exact heq.2
      subst hr0
      have h1 := closeLatex_length hcl
      have h2 := isPrefixOf_length_le hc.1
      simp [lit] at h2
      simp [List.length_drop] at h1
      omega
    · exact absurd ht (by simp)
  split at h
  · rename_i ht
    rw [tryLatexEnv] at ht
    split at ht
    · split at ht
      · rename_i name rest0 hpe
        rw [Option.map_eq_some'] at ht
        obtain ⟨⟨b0, r0⟩, hcl, heq⟩ := ht
        simp only [Prod.mk.injEq] at heq
        have hr0 : r0 = r := by
          cases h
          exact heq.2
        subst hr0
        have h1 := closeSeq_length hcl
        have h2 := parseEnvName_length hpe
        have h3 : (s.drop 7).length ≤ s.length := by
          simp [List.length_drop]
        rw [List.length_append, List.length_append] at h1
        have h4 : 1 ≤ (lit "\\end\x7b").length + name.length + ['}'].length := by
          simp
        simp [List.length_drop] at h3 h2
        omega
      · exact absurd ht (by simp)
    · exact absurd ht (by simp)
  exact absurd h (by simp)

/-! ## Lemmas: scanning behaviour -/

theorem lit_dollars : lit "$$" = ['$', '$'] := rfl

theorem lit_bsbs_lb : lit "\\\\[" = ['\\', '\\', '['] := rfl

theorem lit_bsbs_lp : lit "\\\\(" = ['\\', '\\', '('] := rfl

theorem lit_begin : lit "\\begin\x7b" = ['\\', 'b', 'e', 'g', 'i', 'n', '{'] := rfl

theorem lit_bsbs_rb : lit "\\\\]" = ['\\', '\\', ']'] := rfl

theorem isPrefixOf_cons_cons (a b : Char) (l m : Chars) :
    (a :: l).isPrefixOf (b :: m) = (a == b && l.isPrefixOf m) := rfl

theorem isPrefixOf_append_self (l t : Chars) : l.isPrefixOf (l ++ t) = true := by
  induction l with
  | nil => simp [List.isPrefixOf]
  | cons a as ih => simp [isPrefixOf_cons_cons, ih]

/-- No math rule matches at a position whose head character is neither `$`
nor a backslash. -/
theorem tryMathRules_clean {c : Char} (h1 : c ≠ '$') (h2 : c ≠ '\\')
    (prev : Option Char) (rest : Chars) : tryMathRules prev (c :: rest) = none := by
  have hbt : tryBlockMathTex prev (c :: rest) = none := by
    rw [tryBlockMathTex, if_neg]
    intro hco
    rw [lit_dollars, isPrefixOf_cons_cons] at hco
    have := hco.1
    simp at this
    exact h1 this.1.symm
  have hbl : tryBlockMathLatex prev (c :: rest) = none := by
    rw [tryBlockMathLatex, if_neg]
    intro hco
    rw [lit_bsbs_lb, isPrefixOf_cons_cons] at hco
    have := hco.1
    simp at this
    exact h2 this.1.symm
  have hit : tryInlineMathTex prev (c :: rest) = none := by
    rw [tryInlineMathTex, if_neg]
    intro hco
    have := hco.1
    simp at this
    exact h1 this
  have hil : tryInlineMathLatex prev (c :: rest) = none := by
    rw [tryInlineMathLatex, if_neg]
    intro hco
    rw [lit_bsbs_lp, isPrefixOf_cons_cons] at hco
    have := hco.1
    simp at this
    exact h2 this.1.symm
  have hle : tryLatexEnv prev (c :: rest) = none := by
    rw [tryLatexEnv, if_neg]
    intro hco
    rw [lit_begin, isPrefixOf_cons_cons] at hco
    simp at hco
    exact h2 hco.1.symm
  rw [tryMathRules, hbt, hbl, hit, hil, hle]

theorem scanAux_nil (fuel : Nat) (prev : Option Char) (acc : Chars) :
    scanAux fuel prev acc [] = flushText acc [] := by
  cases fuel <;> rfl

theorem scanAux_cons_some {prev : Option Char} {c : Char} {rest : Chars} {t : Token}
    {last : Char} {rest2 : Chars} (h : tryMathRules prev (c :: rest) = some (t, last, rest2))
    (fuel : Nat) (acc : Chars) :
    scanAux (fuel + 1) prev acc (c :: rest) =
      flushText acc (t :: scanAux fuel (some last) [] rest2) := by
  have e : scanAux (fuel + 1) prev acc (c :: rest) =
      match tryMathRules prev (c :: rest) with
      | some (t, last, rest2) => flushText acc (t :: scanAux fuel (some last) [] rest2)
      | none => scanAux fuel (some c) (c :: acc) rest := rfl
  rw [e, h]

theorem scanAux_cons_none {prev : Option Char} {c : Char} {rest : Chars}
    (h : tryMathRules prev (c :: rest) = none) (fuel : Nat) (acc : Chars) :
    scanAux (fuel + 1) prev acc (c :: rest) = scanAux fuel (some c) (c :: acc) rest := by
  have e : scanAux (fuel + 1) prev acc (c :: rest) =
      match tryMathRules prev (c :: rest) with
      | some (t, last, rest2) => flushText acc (t :: scanAux fuel (some last) [] rest2)
      | none => scanAux fuel (some c) (c :: acc) rest := rfl
  rw [e, h]

theorem prevOf_nil (prev : Option Char) : prevOf [] prev = prev := rfl

theorem prevOf_cons (c : Char) (pre : Chars) (prev : Option Char) :
    prevOf (c :: pre) prev = prevOf pre (some c) := by
  cases pre with
  | nil => rfl
  | cons d pre2 =>
    rw [prevOf, prevOf]
    cases e : (d :: pre2).getLast? with
    | none => simp at e
    | some x => rw [List.getLast?_cons_cons, e]

theorem prevOf_clean {pre : Chars} (h : ∀ c ∈ pre, c ≠ '$' ∧ c ≠ '\\') :
    prevOf pre none ≠ some '\\' := by
  rw [prevOf]
  cases e : pre.getLast? with
  | none => simp
  | some x =>
    have hx : x ∈ pre := List.mem_of_mem_getLast? (by rw [e]; rfl)
    simp
    exact (h x hx).2

/-- Scanning through a span free of `$` and backslashes reaches its end with
the characters accumulated as pending text. -/
theorem scanAux_clean (pre : Chars) (f : Nat) (prev : Option Char) (acc s : Chars)
    (h : ∀ c ∈ pre, c ≠ '$' ∧ c ≠ '\\') :
    scanAux (pre.length + f) prev acc (pre ++ s) =
      scanAux f (prevOf pre prev) (pre.reverse ++ acc) s := by
  induction pre generalizing prev acc with
  | nil => simp [prevOf_nil]
  | cons c pre2 ih =>
    have hc := h c (by simp)
    have hrest : ∀ x ∈ pre2, x ≠ '$' ∧ x ≠ '\\' := fun x hx => h x (by simp [hx])
    have hlen : (c :: pre2).length + f = (pre2.length + f) + 1 := by
      simp
      omega
    rw [hlen, List.cons_append,
      scanAux_cons_none (tryMathRules_clean hc.1 hc.2 prev (pre2 ++ s)),
      ih (some c) (c :: acc) hrest, prevOf_cons]
    simp

theorem flushText_reverse (s : Chars) (toks : List Token) :
    flushText s.reverse toks = textTok s ++ toks := by
  rw [flushText, textTok]
  by_cases h : s = [] <;> simp [h]

/-- A trailing span free of `$` and backslashes scans to a single text token. -/
theorem scanAux_clean_tail (post : Chars) (f : Nat) (prev : Option Char)
    (h : ∀ c ∈ post, c ≠ '$' ∧ c ≠ '\\') :
    scanAux (post.length + f) prev [] post = textTok post := by
  have e := scanAux_clean post f prev [] [] h
  rw [List.append_nil] at e
  rw [e, scanAux_nil, List.append_nil, flushText_reverse, List.append_nil]

/-! ## Lemmas: the closers on bodies free of their delimiter characters -/

theorem closeDollar2_clean (body : Chars) (prev : Char) (post : Chars)
    (h1 : '$' ∉ body) (h2 : body.getLastD prev ≠ '\\') :
    closeDollar2 prev (body ++ '$' :: '$' :: post) = some (body, post) := by
  induction body generalizing prev with
  | nil =>
    rw [List.nil_append, closeDollar2, if_pos]
    · rfl
    · refine ⟨rfl, rfl, ?_⟩
      simpa using h2
  | cons c b ih =>
    have hc : c ≠ '$' := by
      intro he
      exact h1 (by simp [he])
    have hb : '$' ∉ b := fun hx => h1 (by simp [hx])
    have h2b : b.getLastD c ≠ '\\' := by
      rwa [List.getLastD_cons] at h2
    rw [List.cons_append, closeDollar2, if_neg, ih c hb h2b]
    · rfl
    · intro hco
      exact hc hco.1

theorem closeLatex_clean (body : Chars) (d : Char) (prev : Char) (post : Chars)
    (h1 : '\\' ∉ body) (h2 : body.getLastD prev ≠ '\\') :
    closeLatex d prev (body ++ '\\' :: '\\' :: d :: post) = some (body, post) := by
  induction body generalizing prev with
  | nil =>
    rw [List.nil_append, closeLatex, if_pos]
    · rfl
    · refine ⟨rfl, rfl, rfl, ?_⟩
      simpa using h2
  | cons c b ih =>
    have hc : c ≠ '\\' := by
      intro he
      exact h1 (by simp [he])
    have hb : '\\' ∉ b := fun hx => h1 (by simp [hx])
    have h2b : b.getLastD c ≠ '\\' := by
      rwa [List.getLastD_cons] at h2
    rw [List.cons_append, closeLatex, if_neg, ih c hb h2b]
    · rfl
    · intro hco
      exact hc hco.1

theorem closeSeq_clean (body : Chars) (h0 : Char) (ct : Chars) (post : Chars)
    (h1 : h0 ∉ body) :
    closeSeq (h0 :: ct) (body ++ (h0 :: ct) ++ post) = some (body, post) := by
  induction body with
  | nil =>
    rw [List.nil_append, List.cons_append, closeSeq, if_pos]
    · rw [← List.cons_append, List.drop_left]
    · rw [← List.cons_append]
      exact isPrefixOf_append_self (h0 :: ct) post
  | cons c b ih =>
    have hc : h0 ≠ c := by
      intro he
      exact h1 (by simp [he])
    have hb : h0 ∉ b := fun hx => h1 (by simp [hx])
    rw [List.cons_append, List.cons_append, closeSeq, if_neg, ih hb]
    · rfl
    · rw [isPrefixOf_cons_cons]
      simp [hc]

theorem getLastD_ne_of_getLast? {body : Chars} {d e : Char}
    (h : body.getLast? ≠ some e) (hd : d ≠ e) : body.getLastD d ≠ e := by
  rw [List.getLastD_eq_getLast?]
  cases hl : body.getLast? with
  | none => simpa using hd
  | some x =>
    simp only [Option.getD_some]
    intro hx
    exact h (by rw [hl, hx])

theorem getLast?_ne_of_not_mem {body : Chars} {e : Char} (h : e ∉ body) :
    body.getLast? ≠ some e := by
  intro hl
  exact h (List.mem_of_mem_getLast? (by rw [hl]; rfl))

theorem getLast?_cons_eq_getLastD (c : Char) (l : Chars) :
    (c :: l).getLast? = some (l.getLastD c) := by
  induction l generalizing c with
  | nil => rfl
  | cons d l2 ih => rw [List.getLast?_cons_cons, ih, List.getLastD_cons]

/-- The character just before the closing `$` found by `closeDollar1` is
neither `$` nor a backslash (the closing lookbehind). -/
theorem closeDollar1_last {prev : Char} {s b r : Chars}
    (h : closeDollar1 prev s = some (b, r)) :
    b.getLastD prev ≠ '$' ∧ b.getLastD prev ≠ '\\' := by
  induction s generalizing prev b with
  | nil => simp [closeDollar1] at h
  | cons c rest ih =>
    rw [closeDollar1] at h
    split at h
    · rename_i hc
      simp only [Option.some.injEq, Prod.mk.injEq] at h
      obtain ⟨hb, hr⟩ := h
      subst hb
      exact ⟨by simpa using hc.2.1, by simpa using hc.2.2⟩
    · rw [Option.map_eq_some'] at h
      obtain ⟨⟨b0, r0⟩, hcl, heq⟩ := h
      simp only [Prod.mk.injEq] at heq
      obtain ⟨hb, hr⟩ := heq
      subst hb
      subst hr
      rw [List.getLastD_cons]
      exact ih hcl

/-- One scan step across a `$$...$$` span: the span becomes a single
`block_math` token whose raw body is exactly the text between the
delimiters, and a clean tail becomes trailing text. -/
theorem scanAux_span_tex (body post : Chars) (prev : Option Char) (acc : Chars)
    (hprev : prev ≠ some '\\') (hb1 : '$' ∉ body) (hb2 : body.getLastD '$' ≠ '\\')
    (hpost : ∀ c ∈ post, c ≠ '$' ∧ c ≠ '\\') :
    scanAux ('$' :: '$' :: (body ++ '$' :: '$' :: post)).length prev acc
        ('$' :: '$' :: (body ++ '$' :: '$' :: post)) =
      flushText acc (Token.blockMath body :: textTok post) := by
  have htex : tryBlockMathTex prev ('$' :: '$' :: (body ++ '$' :: '$' :: post)) =
      some (Token.blockMath body, post) := by
    rw [tryBlockMathTex, if_pos]
    · have hdrop : ('$' :: '$' :: (body ++ '$' :: '$' :: post)).drop 2 =
          body ++ '$' :: '$' :: post := rfl
      rw [hdrop, closeDollar2_clean body '$' post hb1 hb2]
      rfl
    · constructor
      · rw [lit_dollars, isPrefixOf_cons_cons, isPrefixOf_cons_cons]
        simp [List.isPrefixOf]
      · exact hprev
  have hrules : tryMathRules prev ('$' :: '$' :: (body ++ '$' :: '$' :: post)) =
      some (Token.blockMath body, '$', post) := by
    rw [tryMathRules, htex]
  have hlen : ('$' :: '$' :: (body ++ '$' :: '$' :: post)).length =
      ('$' :: (body ++ '$' :: '$' :: post)).length + 1 := by
    simp
  rw [hlen, scanAux_cons_some hrules]
  have hlen2 : ('$' :: (body ++ '$' :: '$' :: post)).length =
      post.length + (body.length + 3) := by
    simp
    omega
  rw [hlen2, scanAux_clean_tail post (body.length + 3) (some '$') hpost]

/-- One scan step across a `\\[...\\]` span: the span becomes a single
`block_math` token via the `block_math_latex` rule. -/
theorem scanAux_span_latex (body post : Chars) (prev : Option Char) (acc : Chars)
    (hprev : prev ≠ some '\\') (hb1 : '\\' ∉ body)
    (hpost : ∀ c ∈ post, c ≠ '$' ∧ c ≠ '\\') :
    scanAux ('\\' :: '\\' :: '[' :: (body ++ '\\' :: '\\' :: ']' :: post)).length prev acc
        ('\\' :: '\\' :: '[' :: (body ++ '\\' :: '\\' :: ']' :: post)) =
      flushText acc (Token.blockMath body :: textTok post) := by
  have htex : tryBlockMathTex prev ('\\' :: '\\' :: '[' :: (body ++ '\\' :: '\\' :: ']' :: post)) =
      none := by
    rw [tryBlockMathTex, if_neg]
    intro hco
    have := hco.1
    rw [lit_dollars, isPrefixOf_cons_cons] at this
    simp at this
  have hlat : tryBlockMathLatex prev
      ('\\' :: '\\' :: '[' :: (body ++ '\\' :: '\\' :: ']' :: post)) =
      some (Token.blockMath body, post) := by
    rw [tryBlockMathLatex, if_pos]
    · have hdrop : ('\\' :: '\\' :: '[' :: (body ++ '\\' :: '\\' :: ']' :: post)).drop 3 =
          body ++ '\\' :: '\\' :: ']' :: post := rfl
      rw [hdrop, closeLatex_clean body ']' '[' post hb1
        (getLastD_ne_of_getLast? (getLast?_ne_of_not_mem hb1) (by decide))]
      rfl
    · constructor
      · rw [lit_bsbs_lb, isPrefixOf_cons_cons, isPrefixOf_cons_cons, isPrefixOf_cons_cons]
        simp [List.isPrefixOf]
      · exact hprev
  have hrules : tryMathRules prev ('\\' :: '\\' :: '[' :: (body ++ '\\' :: '\\' :: ']' :: post)) =
      some (Token.blockMath body, ']', post) := by
    rw [tryMathRules, htex, hlat]
  have hlen : ('\\' :: '\\' :: '[' :: (body ++ '\\' :: '\\' :: ']' :: post)).length =
      ('\\' :: '[' :: (body ++ '\\' :: '\\' :: ']' :: post)).length + 1 := by
    simp
  rw [hlen, scanAux_cons_some hrules]
  have hlen2 : ('\\' :: '[' :: (body ++ '\\' :: '\\' :: ']' :: post)).length =
      post.length + (body.length + 5) := by
    simp only [List.length_cons, List.length_append]
    omega
  rw [hlen2, scanAux_clean_tail post (body.length + 5) (some ']') hpost]

/-- `MULTILINE_MATH`'s first alternative matches a whole `$$...$$` span. -/
theorem multilineMathMatch_tex (body post : Chars) (prev : Option Char)
    (hprev : prev ≠ some '\\') (hb1 : '$' ∉ body) (hb2 : body.getLastD '$' ≠ '\\') :
    multilineMathMatch prev ('$' :: '$' :: (body ++ '$' :: '$' :: post)) =
      some (lit "$$" ++ body ++ lit "$$", post) := by
  rw [multilineMathMatch, if_pos]
  · have hdrop : ('$' :: '$' :: (body ++ '$' :: '$' :: post)).drop 2 =
        body ++ '$' :: '$' :: post := rfl
    rw [hdrop, closeDollar2_clean body '$' post hb1 hb2]
    rfl
  · constructor
    · rw [lit_dollars, isPrefixOf_cons_cons, isPrefixOf_cons_cons]
      simp [List.isPrefixOf]
    · exact hprev

/-- `MULTILINE_MATH`'s second alternative matches a whole `\\[...\\]` span
(the first alternative cannot fire there). -/
theorem multilineMathMatch_latex (body post : Chars) (prev : Option Char)
    (hb1 : '\\' ∉ body) :
    multilineMathMatch prev ('\\' :: '\\' :: '[' :: (body ++ '\\' :: '\\' :: ']' :: post)) =
      some (lit "\\\\[" ++ body ++ lit "\\\\]", post) := by
  rw [multilineMathMatch, if_neg, if_pos]
  · have hdrop : ('\\' :: '\\' :: '[' :: (body ++ '\\' :: '\\' :: ']' :: post)).drop 3 =
        body ++ '\\' :: '\\' :: ']' :: post := rfl
    rw [hdrop]
    have hsh : body ++ '\\' :: '\\' :: ']' :: post =
        body ++ ('\\' :: ['\\', ']']) ++ post := by
      simp
    rw [hsh, lit_bsbs_rb, closeSeq_clean body '\\' ['\\', ']'] post hb1]
    rfl
  · rw [lit_bsbs_lb, isPrefixOf_cons_cons, isPrefixOf_cons_cons, isPrefixOf_cons_cons]
    simp [List.isPrefixOf]
  · intro hco
    have := hco.1
    rw [lit_dollars, isPrefixOf_cons_cons] at this
    simp at this

/-! ## The claims -/

/-- C1: for every input text containing a balanced `$$...$$` span whose body
has an internal newline and whose delimiters are not preceded by a backslash
(formalised: the surrounding text carries no `$` or `\` that could start or
disturb a math rule, the body carries no `$` and does not end in `\`),
parsing produces exactly one `block_math` token for that span, and the
token's raw field is byte-identical to the source substring between the
delimiters, with no reinterpretation; the block-level `multiline_math` rule
likewise matches the whole span as one paragraph. -/
theorem c1_block_math_dollar_span (pre body post : Chars)
    (hpre : ∀ c ∈ pre, c ≠ '$' ∧ c ≠ '\\')
    (hpost : ∀ c ∈ post, c ≠ '$' ∧ c ≠ '\\')
    (_hnl : '\n' ∈ body) (hb1 : '$' ∉ body) (hb2 : body.getLast? ≠ some '\\') :
    tokenize (pre ++ lit "$$" ++ body ++ lit "$$" ++ post)
        = textTok pre ++ Token.blockMath body :: textTok post
    ∧ (tokenize (pre ++ lit "$$" ++ body ++ lit "$$" ++ post)).filter isBlockMath
        = [Token.blockMath body]
    ∧ multilineMathMatch (prevOf pre none) (lit "$$" ++ body ++ lit "$$" ++ post)
        = some (lit "$$" ++ body ++ lit "$$", post) := by
  have hlast : body.getLastD '$' ≠ '\\' := getLastD_ne_of_getLast? hb2 (by decide)
  have hassoc : pre ++ lit "$$" ++ body ++ lit "$$" ++ post
      = pre ++ ('$' :: '$' :: (body ++ '$' :: '$' :: post)) := by
    simp [lit_dollars, List.append_assoc]
  have hassoc2 : lit "$$" ++ body ++ lit "$$" ++ post
      = '$' :: '$' :: (body ++ '$' :: '$' :: post) := by
    simp [lit_dollars, List.append_assoc]
  have h1 : tokenize (pre ++ lit "$$" ++ body ++ lit "$$" ++ post)
      = textTok pre ++ Token.blockMath body :: textTok post := by
    rw [tokenize, hassoc, List.length_append,
      scanAux_clean pre ('$' :: '$' :: (body ++ '$' :: '$' :: post)).length none []
        ('$' :: '$' :: (body ++ '$' :: '$' :: post)) hpre,
      List.append_nil,
      scanAux_span_tex body post (prevOf pre none) pre.reverse (prevOf_clean hpre) hb1
        hlast hpost,
      flushText_reverse]
  refine ⟨h1, ?_, ?_⟩
  · rw [h1, List.filter_append]
    by_cases hp : pre = [] <;> by_cases hq : post = [] <;>
      simp [textTok, hp, hq, isBlockMath]
  · rw [hassoc2]
    exact multilineMathMatch_tex body post (prevOf pre none) (prevOf_clean hpre) hb1 hlast

theorem c1_witness :
    ('\n' ∈ lit "x\ny") ∧
    tokenize (lit "a " ++ lit "$$" ++ lit "x\ny" ++ lit "$$" ++ lit " b")
      = textTok (lit "a ") ++ Token.blockMath (lit "x\ny") :: textTok (lit " b") :=
  ⟨by decide,
   (c1_block_math_dollar_span (lit "a ") (lit "x\ny") (lit " b")
      (by decide) (by decide) (by decide) (by decide) (by decide)).1⟩

/-- C2 counterexample: on `$5 and $10` the inline parser DOES produce an
`inline_math` token (raw body `5 and `): the closing `$` before `10` is
preceded by a space, which passes the `(?<![$\\])` lookbehind, so the claim
that no `inline_math` token is produced is false. -/
theorem c2_counterexample :
    Token.inlineMath (lit "5 and ") ∈ tokenize (lit "$5 and $10") := by decide

/-- C2 (amended): on `$5 and $10` the inline parser emits exactly one
`inline_math` token with raw body `5 and ` (the dollar signs do not pass
through as literal text); in general `inline_math_tex` matches only with a
non-empty body whose opening `$` is not immediately preceded by `$` or `\`
and whose closing `$` is not immediately preceded by `$` or `\` — the
characters following either delimiter are not inspected. -/
theorem c2_inline_math_guard :
    tokenize (lit "$5 and $10")
        = [Token.inlineMath (lit "5 and "), Token.text (lit "10")]
    ∧ ∀ (prev : Option Char) (s : Chars) (tok : Token) (rest : Chars),
        tryInlineMathTex prev s = some (tok, rest) →
        prev ≠ some '$' ∧ prev ≠ some '\\' ∧
        ∃ body, tok = Token.inlineMath body ∧ body ≠ [] ∧
          ∃ d, body.getLast? = some d ∧ d ≠ '$' ∧ d ≠ '\\' := by
  constructor
  · decide
  · intro prev s tok rest h
    rw [tryInlineMathTex] at h
    split at h
    · rename_i hco
      split at h
      · exact absurd h (by simp)
      · rename_i c rest0 htl
        rw [Option.map_eq_some'] at h
        obtain ⟨⟨b0, r0⟩, hcl, heq⟩ := h
        simp only [Prod.mk.injEq] at heq
        obtain ⟨htok, hr⟩ := heq
        exact ⟨hco.2.1, hco.2.2, c :: b0, htok.symm, by simp, b0.getLastD c,
          getLast?_cons_eq_getLastD c b0, (closeDollar1_last hcl).1,
          (closeDollar1_last hcl).2⟩
    · exact absurd h (by simp)

theorem c2_witness :
    tryInlineMathTex none (lit "$x$") = some (Token.inlineMath (lit "x"), []) ∧
    ((none : Option Char) ≠ some '$' ∧ (none : Option Char) ≠ some '\\' ∧
      ∃ body, Token.inlineMath (lit "x") = Token.inlineMath body ∧ body ≠ [] ∧
        ∃ d, body.getLast? = some d ∧ d ≠ '$' ∧ d ≠ '\\') :=
  ⟨by decide,
   c2_inline_math_guard.2 none (lit "$x$") (Token.inlineMath (lit "x")) [] (by decide)⟩

/-- C4: `\begin{equation}x^2\end{equation}` parses to a single
`latex_environment` token and renders back to itself (HTML-escaping is the
identity here), with the environment name uncorrupted; mismatched
`\begin{a}...\end{b}` produces no math token — neither the inline
`latex_environment` rule nor the block `multiline_math` rule matches, and
the text falls through as plain text. -/
theorem c4_latex_environment_roundtrip :
    tokenize (lit "\\begin{equation}x^2\\end{equation}")
        = [Token.latexEnv (lit "equation") (lit "x^2")]
    ∧ latex_environment (lit "equation") (lit "x^2")
        = lit "\\begin{equation}x^2\\end{equation}"
    ∧ tokenize (lit "\\begin{a}x\\end{b}") = [Token.text (lit "\\begin{a}x\\end{b}")]
    ∧ multilineMathMatch none (lit "\\begin{a}x\\end{b}") = none :=
  ⟨by decide, by decide, by decide, by decide⟩

/-- C5 counterexample: a span delimited by single-backslash `\[` and `\]` is
NOT recognized — the patterns require the two-character delimiters `\\[` and
`\\]` — so `\[x\]` yields no `block_math` token at either level, refuting
the claim as stated. -/
theorem c5_counterexample :
    tokenize (lit "\\[x\\]") = [Token.text (lit "\\[x\\]")]
    ∧ multilineMathMatch none (lit "\\[x\\]") = none :=
  ⟨by decide, by decide⟩

/-- C5 (amended): for every input text containing a span delimited by the
double-backslash forms `\\[` and `\\]` (which is what the `multiline_math`
and `block_math_latex` patterns `\\\\\[ ... \\\\\]` require), the parser
emits a `block_math` token carrying the body between the delimiters, at
block level and at inline level. -/
theorem c5_block_math_latex_amended (pre body post : Chars)
    (hpre : ∀ c ∈ pre, c ≠ '$' ∧ c ≠ '\\')
    (hpost : ∀ c ∈ post, c ≠ '$' ∧ c ≠ '\\')
    (hb : '\\' ∉ body) :
    tokenize (pre ++ lit "\\\\[" ++ body ++ lit "\\\\]" ++ post)
        = textTok pre ++ Token.blockMath body :: textTok post
    ∧ multilineMathMatch (prevOf pre none) (lit "\\\\[" ++ body ++ lit "\\\\]" ++ post)
        = some (lit "\\\\[" ++ body ++ lit "\\\\]", post) := by
  have hassoc : pre ++ lit "\\\\[" ++ body ++ lit "\\\\]" ++ post
      = pre ++ ('\\' :: '\\' :: '[' :: (body ++ '\\' :: '\\' :: ']' :: post)) := by
    simp [lit_bsbs_lb, lit_bsbs_rb, List.append_assoc]
  have hassoc2 : lit "\\\\[" ++ body ++ lit "\\\\]" ++ post
      = '\\' :: '\\' :: '[' :: (body ++ '\\' :: '\\' :: ']' :: post) := by
    simp [lit_bsbs_lb, lit_bsbs_rb, List.append_assoc]
  constructor
  · rw [tokenize, hassoc, List.length_append,
      scanAux_clean pre ('\\' :: '\\' :: '[' :: (body ++ '\\' :: '\\' :: ']' :: post)).length
        none [] ('\\' :: '\\' :: '[' :: (body ++ '\\' :: '\\' :: ']' :: post)) hpre,
      List.append_nil,
      scanAux_span_latex body post (prevOf pre none) pre.reverse (prevOf_clean hpre) hb hpost,
      flushText_reverse]
  · rw [hassoc2]
    exact multilineMathMatch_latex body post (prevOf pre none) hb

theorem c5_witness :
    ('\\' ∉ lit "x+y") ∧
    tokenize (lit "a " ++ lit "\\\\[" ++ lit "x+y" ++ lit "\\\\]" ++ lit " b")
      = textTok (lit "a ") ++ Token.blockMath (lit "x+y") :: textTok (lit " b") :=
  ⟨by decide,
   (c5_block_math_latex_amended (lit "a ") (lit "x+y") (lit " b")
      (by decide) (by decide) (by decide)).1⟩

/-- C9: the environment-name pattern `[a-z]*\*?` admits the empty name and
the bare `*`: `\begin{}x\end{}` parses to a `latex_environment` token whose
name is the empty string, and `\begin{*}x\end{*}` to one whose name is `*`;
the block-level `multiline_math` rule matches the empty-name span too. -/
theorem c9_empty_env_name :
    tokenize (lit "\\begin\x7b\x7dx\\end\x7b\x7d") = [Token.latexEnv [] (lit "x")]
    ∧ tokenize (lit "\\begin{*}x\\end{*}") = [Token.latexEnv (lit "*") (lit "x")]
    ∧ multilineMathMatch none (lit "\\begin\x7b\x7dx\\end\x7b\x7d")
        = some (lit "\\begin\x7b\x7dx\\end\x7b\x7d", []) :=
  ⟨by decide, by decide, by decide⟩

/-- C3: rendering an `attachment:` image raises `InvalidNotebook` if and
only if the name is absent from the attachment map; when the name is
present, the rendered url is a base64 data url whose MIME type is the one
selected by `pick_mime` — the first of svg/png/jpeg present in the
attachment, else its first available type. -/
theorem c3_image_attachment (fs : List (Chars × List Nat)) (guess : Chars → Option Chars)
    (r : IPythonRenderer) (text : Chars) (title : Option Chars) (name : Chars) :
    (raisesInvalidNotebook (image fs guess r text (lit "attachment:" ++ name) title) = true
      ↔ alookup r.attachments name = none)
    ∧ (∀ att mime data, alookup r.attachments name = some att →
        pick_mime att = some mime → alookup att mime = some data →
        image fs guess r text (lit "attachment:" ++ name) title
          = .ok (super_image text (lit "data:" ++ mime ++ lit ";base64," ++ data) title)) := by
  have hpre : (lit "attachment:").isPrefixOf (lit "attachment:" ++ name) = true :=
    isPrefixOf_append_self _ _
  have hdrop : (lit "attachment:" ++ name).drop (lit "attachment:").length = name :=
    List.drop_left _ _
  rw [image, if_pos hpre]
  simp only [hdrop]
  constructor
  · cases halo : alookup r.attachments name with
    | none => simp [raisesInvalidNotebook]
    | some att =>
      cases hpick : pick_mime att with
      | none => simp [raisesInvalidNotebook, hpick]
      | some mime =>
        cases hdata : alookup att mime with
        | none => simp [raisesInvalidNotebook, hpick, hdata]
        | some data => simp [raisesInvalidNotebook, hpick, hdata]
  · intro att mime data h1 h2 h3
    simp only [h1, h2, h3]

theorem c3_witness :
    (alookup ([(lit "fig1", [(lit "image/png", lit "iVBORw0KGgo=")])] :
        List (Chars × List (Chars × Chars))) (lit "fig1")
      = some [(lit "image/png", lit "iVBORw0KGgo=")]) ∧
    image [] (fun _ => none)
        { attachments := [(lit "fig1", [(lit "image/png", lit "iVBORw0KGgo=")])] }
        (lit "alt") (lit "attachment:" ++ lit "fig1") none
      = .ok (super_image (lit "alt")
          (lit "data:" ++ lit "image/png" ++ lit ";base64," ++ lit "iVBORw0KGgo=") none) ∧
    raisesInvalidNotebook
        (image [] (fun _ => none) {} (lit "alt") (lit "attachment:" ++ lit "fig1") none)
      = true :=
  ⟨by decide,
   (c3_image_attachment [] (fun _ => none)
      { attachments := [(lit "fig1", [(lit "image/png", lit "iVBORw0KGgo=")])] }
      (lit "alt") none (lit "fig1")).2
      [(lit "image/png", lit "iVBORw0KGgo=")] (lit "image/png") (lit "iVBORw0KGgo=")
      (by decide) (by decide) (by decide),
   (c3_image_attachment [] (fun _ => none) {} (lit "alt") none (lit "fig1")).1.mpr
      (by decide)⟩

/-- C6: when anchor links are not excluded, a heading renders with an anchor
link whose target id is the heading's visible text with whitespace replaced
by hyphens and whose visible glyph is the configured anchor-link text; when
they are excluded, only the plain heading markup appears. -/
theorem c6_heading_anchor (r : IPythonRenderer) (text : Chars) (level : Nat) :
    (r.exclude_anchor_links = false →
      heading r text level =
        lit "<h" ++ lit (toString level) ++ lit " id=\"" ++ anchorId text ++ lit "\">" ++
          text ++ lit "<a class=\"anchor-link\" href=\"#" ++ anchorId text ++ lit "\">" ++
          r.anchor_link_text ++ lit "</a></h" ++ lit (toString level) ++ lit ">\n")
    ∧ (r.exclude_anchor_links = true →
      heading r text level = lit "<h" ++ lit (toString level) ++ lit ">" ++ text ++
        lit "</h" ++ lit (toString level) ++ lit ">\n") := by
  constructor
  · intro h
    rw [heading, if_neg (by simp [h]), add_anchor]
  · intro h
    rw [heading, if_pos h, super_heading]

theorem c6_witness :
    (({} : IPythonRenderer).exclude_anchor_links = false) ∧
    anchorId (lit "Hello World") = lit "Hello-World" ∧
    heading {} (lit "Hello World") 1 =
      lit "<h" ++ lit (toString 1) ++ lit " id=\"" ++ anchorId (lit "Hello World") ++
        lit "\">" ++ lit "Hello World" ++ lit "<a class=\"anchor-link\" href=\"#" ++
        anchorId (lit "Hello World") ++ lit "\">" ++
        ({} : IPythonRenderer).anchor_link_text ++ lit "</a></h" ++ lit (toString 1) ++
        lit ">\n" :=
  ⟨rfl, by decide, (c6_heading_anchor {} (lit "Hello World") 1).1 rfl⟩

/-- C7: a fenced code block whose fence-info first word resolves to a known
highlighter language renders as the highlighter's markup for the code;
when the lookup fails, rendering falls back to a plain block whose body is
the fence-info word, a newline, then the original code. -/
theorem c7_block_code_fallback (known : Chars → Bool) (hl : Chars → Chars → Chars)
    (code info lang : Chars)
    (h1 : py_split_first (py_strip info) = some lang)
    (h2 : (lit "mermaid").isPrefixOf info = false)
    (h3 : info ≠ []) :
    (known lang = true → block_code known hl code (some info) = some (hl lang code))
    ∧ (known lang = false →
        block_code known hl code (some info)
          = some (super_block_code (lang ++ '\n' :: code))) := by
  constructor
  · intro hk
    rw [block_code, if_neg h3, if_neg (by simp [h2])]
    simp only [h1]
    rw [if_pos hk]
  · intro hk
    rw [block_code, if_neg h3, if_neg (by simp [h2])]
    simp only [h1]
    rw [if_neg (by simp [hk])]

theorem c7_witness :
    py_split_first (py_strip (lit "python")) = some (lit "python") ∧
    block_code (fun l => l == lit "python") (fun l c => lit "[hl]" ++ l ++ lit "|" ++ c)
        (lit "print(1)") (some (lit "python"))
      = some (lit "[hl]" ++ lit "python" ++ lit "|" ++ lit "print(1)") ∧
    block_code (fun l => l == lit "python") (fun l c => lit "[hl]" ++ l ++ lit "|" ++ c)
        (lit "print(1)") (some (lit "not-a-real-lang"))
      = some (super_block_code (lit "not-a-real-lang" ++ '\n' :: lit "print(1)")) :=
  ⟨by decide,
   (c7_block_code_fallback (fun l => l == lit "python")
      (fun l c => lit "[hl]" ++ l ++ lit "|" ++ c) (lit "print(1)") (lit "python")
      (lit "python") (by decide) (by decide) (by decide)).1 (by decide),
   (c7_block_code_fallback (fun l => l == lit "python")
      (fun l c => lit "[hl]" ++ l ++ lit "|" ++ c) (lit "print(1)")
      (lit "not-a-real-lang") (lit "not-a-real-lang")
      (by decide) (by decide) (by decide)).2 (by decide)⟩

/-- C8: in embed-images mode, a non-attachment image whose resolved path
names no existing file renders with the url left unmodified (no failure);
when the file exists, the url is replaced by a base64 data url of the file's
contents with the guessed MIME type. -/
theorem c8_embed_image_missing_file (fs : List (Chars × List Nat))
    (guess : Chars → Option Chars) (r : IPythonRenderer) (text url : Chars)
    (title : Option Chars)
    (hembed : r.embed_images = true)
    (hatt : (lit "attachment:").isPrefixOf url = false) :
    (alookup fs (os_path_join r.path url) = none →
      image fs guess r text url title = .ok (super_image text url title))
    ∧ (∀ bytes, alookup fs (os_path_join r.path url) = some bytes →
      image fs guess r text url title = .ok (super_image text
        (lit "data:" ++ pyStr (guess (os_path_join r.path url)) ++ lit ";base64," ++
          ((b64encode bytes).filter fun c => c != '\n')) title)) := by
  constructor
  · intro h
    rw [image, if_neg (by simp [hatt]), if_pos hembed]
    simp only [src_to_base64, h]
  · intro bytes h
    rw [image, if_neg (by simp [hatt]), if_pos hembed]
    simp only [src_to_base64, h]

theorem c8_witness :
    (alookup ([(lit "base/a.png", [72, 105])] : List (Chars × List Nat))
        (os_path_join (lit "base") (lit "a.png")) = some [72, 105]) ∧
    image [(lit "base/a.png", [72, 105])] (fun _ => some (lit "image/png"))
        { embed_images := true, path := lit "base" } (lit "alt") (lit "b.png") none
      = .ok (super_image (lit "alt") (lit "b.png") none) ∧
    image [(lit "base/a.png", [72, 105])] (fun _ => some (lit "image/png"))
        { embed_images := true, path := lit "base" } (lit "alt") (lit "a.png") none
      = .ok (super_image (lit "alt")
          (lit "data:" ++
            pyStr ((fun _ => some (lit "image/png"))
              (os_path_join ({ embed_images := true, path := lit "base" } :
                IPythonRenderer).path (lit "a.png"))) ++ lit ";base64," ++
            ((b64encode [72, 105]).filter fun c => c != '\n')) none) :=
  ⟨by decide,
   (c8_embed_image_missing_file [(lit "base/a.png", [72, 105])]
      (fun _ => some (lit "image/png")) { embed_images := true, path := lit "base" }
      (lit "alt") (lit "b.png") none rfl (by decide)).1 (by decide),
   (c8_embed_image_missing_file [(lit "base/a.png", [72, 105])]
      (fun _ => some (lit "image/png")) { embed_images := true, path := lit "base" }
      (lit "alt") (lit "a.png") none rfl (by decide)).2 [72, 105] (by decide)⟩

/-- C10: in embed-images mode, when the file exists but its MIME type cannot
be guessed, the url is still replaced and begins with the literal text
`data:None;base64,` — Python interpolates the missing type as the string
`None`. -/
theorem c10_data_none_mime (fs : List (Chars × List Nat))
    (guess : Chars → Option Chars) (r : IPythonRenderer) (text url : Chars)
    (title : Option Chars) (bytes : List Nat)
    (hembed : r.embed_images = true)
    (hatt : (lit "attachment:").isPrefixOf url = false)
    (hfile : alookup fs (os_path_join r.path url) = some bytes)
    (hguess : guess (os_path_join r.path url) = none) :
    image fs guess r text url title = .ok (super_image text
      (lit "data:None;base64," ++ ((b64encode bytes).filter fun c => c != '\n')) title) := by
  rw [image, if_neg (by simp [hatt]), if_pos hembed]
  simp only [src_to_base64, hfile, hguess]
  have hpfx : lit "data:" ++ pyStr none ++ lit ";base64," = lit "data:None;base64," := by
    decide
  rw [hpfx]

theorem c10_witness :
    (alookup ([(lit "a.bin", [72, 105])] : List (Chars × List Nat))
        (os_path_join [] (lit "a.bin")) = some [72, 105]) ∧
    image [(lit "a.bin", [72, 105])] (fun _ => none) { embed_images := true }
        (lit "alt") (lit "a.bin") none
      = .ok (super_image (lit "alt")
          (lit "data:None;base64," ++ ((b64encode [72, 105]).filter fun c => c != '\n'))
          none) :=
  ⟨by decide,
   c10_data_none_mime [(lit "a.bin", [72, 105])] (fun _ => none) { embed_images := true }
      (lit "alt") (lit "a.bin") none [72, 105] rfl (by decide) (by decide) rfl⟩

end Nbconvert
